import Mathlib

/-!
Verification of the algorithm notebooks in davidrpugh/algorithm-and-data-structures.

The repository contains two notebooks:

* `longest-common-subsequences.ipynb` — the Needleman-Wunsch global-alignment
  score (`needleman_wunsch_algorithm`, built from `_alignment_score_init` and
  `_alignment_score_step`) and a three-sequence LCS-length routine
  (`longest_common_subsequence`), both dynamic programs filling a dense table.
* a majority-element notebook — `is_majority_element`, `naive_algorithm`,
  `_divide_and_conquer` / `divide_and_conquer_algorithm`, and
  `_candidate_majority_element` / `boyer_moore_algorithm`.

The Python tables are embedded as total functions from indices to `Int`
(Python integers), defined by structural recursion that follows the data flow
of the source loops exactly: row `i+1` of the table is computed from row `i`,
cell `(i+1, j+1)` from cells `(i+1, j)`, `(i, j+1)` and `(i, j)`, precisely the
cells available when the source loop writes `D[i+1][j+1]`.  Sequences are
`List α` for a type `α` with decidable equality (Python strings compare
characters with `==`); indexing `s[i]` for the 1-based loop index `i+1` becomes
`s[i]?` on the embedded list, which is `some` of the character at every index
the source actually touches.
-/

section PairwiseAlignment

variable {α : Type*} [DecidableEq α]

/-- One cell update of the pairwise table, the body of `_alignment_score_step`
in the notebook: given the characters `c1 = s1[i-1]`, `c2 = s2[j-1]` and the
already-computed neighbour cells `up = D[i-1][j]`, `left = D[i][j-1]`,
`diag = D[i-1][j-1]`, produce the value the source stores into `D[i][j]`. -/
def _alignment_score_step (c1 c2 : Option α) (mu sigma up left diag : Int) : Int :=
  let insertion := left + sigma
  let deletion := up + sigma
  let m := diag + 1
  let mismatch := diag + mu
  if c1 = c2 then max (max insertion deletion) m
  else max (max insertion deletion) mismatch

/-- Row `i` (`i ≥ 1`) of the pairwise table, produced by the inner `for j`
loop of `needleman_wunsch_algorithm`: entry `0` keeps the value
`sigma * i` written by `_alignment_score_init` (`base`), and entry `j+1` is
`_alignment_score_step` applied to the neighbour cells, where `prev` is row
`i-1` and the recursive call is the part of row `i` already filled in. -/
def _alignment_score_row (c1 : Option α) (s2 : List α) (mu sigma : Int)
    (prev : Nat → Int) (base : Int) : Nat → Int
  | 0 => base
  | j + 1 =>
    _alignment_score_step c1 s2[j]? mu sigma
      (prev (j + 1))
      (_alignment_score_row c1 s2 mu sigma prev base j)
      (prev j)

/-- The table `D` of `needleman_wunsch_algorithm`: row `0` is the boundary
`D[0][j] = sigma * j` written by `_alignment_score_init`, and row `i+1` is
built from row `i` by the `for j` loop (with boundary cell
`D[i+1][0] = sigma * (i+1)` from `_alignment_score_init`). -/
def needleman_wunsch_table (s1 s2 : List α) (mu sigma : Int) : Nat → Nat → Int
  | 0 => fun j => sigma * (j : Int)
  | i + 1 =>
    _alignment_score_row s1[i]? s2 mu sigma
      (needleman_wunsch_table s1 s2 mu sigma i) (sigma * ((i : Int) + 1))

/-- Embedding of `needleman_wunsch_algorithm(s1, s2, mu, sigma)` from the notebook:
fill the `(m+1) × (n+1)` table and return `D[m][n]`. -/
def needleman_wunsch_algorithm (s1 s2 : List α) (mu sigma : Int) : Int :=
  needleman_wunsch_table s1 s2 mu sigma s1.length s2.length

theorem needleman_wunsch_table_zero_left (s1 s2 : List α) (mu sigma : Int) (j : Nat) :
    needleman_wunsch_table s1 s2 mu sigma 0 j = sigma * (j : Int) := rfl

theorem needleman_wunsch_table_zero_right (s1 s2 : List α) (mu sigma : Int) (i : Nat) :
    needleman_wunsch_table s1 s2 mu sigma i 0 = sigma * (i : Int) := by
  cases i with
  | zero => rfl
  | succ i =>
    simp only [needleman_wunsch_table, _alignment_score_row]
    push_cast
    ring

theorem needleman_wunsch_table_succ_succ (s1 s2 : List α) (mu sigma : Int) (i j : Nat) :
    needleman_wunsch_table s1 s2 mu sigma (i + 1) (j + 1) =
      _alignment_score_step s1[i]? s2[j]? mu sigma
        (needleman_wunsch_table s1 s2 mu sigma i (j + 1))
        (needleman_wunsch_table s1 s2 mu sigma (i + 1) j)
        (needleman_wunsch_table s1 s2 mu sigma i j) := rfl

end PairwiseAlignment

section TripleLcs

variable {α : Type*} [DecidableEq α]

/-- Row `(i, j)` (`i, j ≥ 1`) of the three-sequence table of
`longest_common_subsequence`, produced by the innermost `for k` loop: entry
`0` is the boundary zero, and entry `k+1` is the body of the loop, which reads
`D[i-1][j-1][k]` (`prevPlaneRow`), `D[i-1][j][k+1]` (`prevPlaneRowNext`),
`D[i][j-1][k+1]` (`currPlanePrevRow`) and the part of the current row already
filled in. -/
def _lcs3_row (c1 c2 : Option α) (s3 : List α)
    (prevPlaneRow prevPlaneRowNext currPlanePrevRow : Nat → Int) : Nat → Int
  | 0 => 0
  | k + 1 =>
    if c1 = c2 ∧ c2 = s3[k]? then prevPlaneRow k + 1
    else
      max (max (_lcs3_row c1 c2 s3 prevPlaneRow prevPlaneRowNext currPlanePrevRow k)
          (currPlanePrevRow (k + 1)))
        (prevPlaneRowNext (k + 1))

/-- Plane `i` (`i ≥ 1`) of the three-sequence table, produced by the middle
`for j` loop: row `0` is the boundary zeros, and row `j+1` is the `for k`
loop run with plane `i-1` (`prevPlane`) and the rows of plane `i` already
filled in. -/
def _lcs3_plane (c1 : Option α) (s2 s3 : List α)
    (prevPlane : Nat → Nat → Int) : Nat → Nat → Int
  | 0 => fun _ => 0
  | j + 1 =>
    _lcs3_row c1 s2[j]? s3 (prevPlane j) (prevPlane (j + 1))
      (_lcs3_plane c1 s2 s3 prevPlane j)

/-- The 3D table `D` of `longest_common_subsequence`: plane `0` is the
boundary zeros, and plane `i+1` is built from plane `i` by the `for j` /
`for k` loops. -/
def lcs3_table (s1 s2 s3 : List α) : Nat → Nat → Nat → Int
  | 0 => fun _ _ => 0
  | i + 1 => _lcs3_plane s1[i]? s2 s3 (lcs3_table s1 s2 s3 i)

/-- Embedding of `longest_common_subsequence(s1, s2, s3)` from the notebook: fill the
`(m+1) × (n+1) × (p+1)` table and return `D[m][n][p]`. -/
def longest_common_subsequence (s1 s2 s3 : List α) : Int :=
  lcs3_table s1 s2 s3 s1.length s2.length s3.length

theorem lcs3_table_zero_fst (s1 s2 s3 : List α) (j k : Nat) :
    lcs3_table s1 s2 s3 0 j k = 0 := rfl

theorem lcs3_table_zero_snd (s1 s2 s3 : List α) (i k : Nat) :
    lcs3_table s1 s2 s3 i 0 k = 0 := by
  cases i <;> rfl

theorem lcs3_table_zero_trd (s1 s2 s3 : List α) (i j : Nat) :
    lcs3_table s1 s2 s3 i j 0 = 0 := by
  cases i with
  | zero => rfl
  | succ i => cases j <;> rfl

theorem lcs3_table_succ (s1 s2 s3 : List α) (i j k : Nat) :
    lcs3_table s1 s2 s3 (i + 1) (j + 1) (k + 1) =
      if s1[i]? = s2[j]? ∧ s2[j]? = s3[k]? then lcs3_table s1 s2 s3 i j k + 1
      else
        max (max (lcs3_table s1 s2 s3 (i + 1) (j + 1) k)
            (lcs3_table s1 s2 s3 (i + 1) j (k + 1)))
          (lcs3_table s1 s2 s3 i (j + 1) (k + 1)) := rfl

end TripleLcs

section MajorityElement

/-- Embedding of `is_majority_element(element, a)` from the majority notebook:
`a.count(element) > len(a) // 2` (Python `//` on these nonnegative values is
`Nat` division). -/
def is_majority_element (element : Int) (a : List Int) : Bool :=
  decide (a.length / 2 < a.count element)

/-- Embedding of `naive_algorithm(a)`: return the first element of `a` that is a majority
element, and `-1` when the loop falls through. -/
def naive_algorithm (a : List Int) : Int :=
  (a.find? fun element => is_majority_element element a).getD (-1)

/-- The body of the `for element in a` loop of `_candidate_majority_element`:
bump or drop the running count, and when it reaches zero adopt the current
element as the new candidate with count `1`. -/
def _bm_step (state : Int × Int) (element : Int) : Int × Int :=
  let count := if state.1 = element then state.2 + 1 else state.2 - 1
  if count = 0 then (element, 1) else (state.1, count)

/-- Embedding of `_candidate_majority_element(a)`: start from `candidate, count = a[0], 1`
and run the voting loop over all of `a` (the source re-processes `a[0]`).
The unguarded `a[0]` access raises `IndexError` on an empty list; the
embedding returns `none` there and `some candidate` otherwise. -/
def _candidate_majority_element (a : List Int) : Option Int :=
  match a with
  | [] => none
  | x :: _ => some (a.foldl _bm_step (x, 1)).1

/-- Embedding of `boyer_moore_algorithm(a)`: `-1` on the empty list (the `len(a) == 0`
guard, i.e. exactly the case where `_candidate_majority_element` is partial),
otherwise the candidate of the first pass if the second pass confirms it is a
majority element, and `-1` if not. -/
def boyer_moore_algorithm (a : List Int) : Int :=
  match _candidate_majority_element a with
  | none => -1
  | some candidate => if is_majority_element candidate a then candidate else -1

/-- Embedding of `divide_and_conquer_algorithm(a)`: the source body is
`return _get_majority_element(a, 0, len(a))`, but no function named
`_get_majority_element` is defined anywhere in the notebook — the recursive
helper defined directly above it is named `_divide_and_conquer`.  In Python
the call therefore raises `NameError` before touching `a`, for every input.
The embedding returns that error. -/
def divide_and_conquer_algorithm (_a : List Int) : Except String Int :=
  Except.error "NameError: name _get_majority_element is not defined"

end MajorityElement

section MaxHelpers

theorem max_right_swap (a b c : Int) : max (max a b) c = max (max a c) b := by
  rw [max_assoc, max_comm b c, ← max_assoc]

end MaxHelpers

section TripleLcsSymmetry

variable {α : Type*} [DecidableEq α]

theorem lcs3_table_swap12 (s1 s2 s3 : List α) (i j k : Nat) :
    lcs3_table s1 s2 s3 i j k = lcs3_table s2 s1 s3 j i k := by
  have key : ∀ n i j k, i + j + k ≤ n →
      lcs3_table s1 s2 s3 i j k = lcs3_table s2 s1 s3 j i k := by
    intro n
    induction n with
    | zero =>
      intro i j k h
      have hi : i = 0 := by omega
      subst hi
      simp [lcs3_table_zero_fst, lcs3_table_zero_snd]
    | succ n ih =>
      intro i j k h
      match i, j, k with
      | 0, j, k => simp [lcs3_table_zero_fst, lcs3_table_zero_snd]
      | i + 1, 0, k => simp [lcs3_table_zero_fst, lcs3_table_zero_snd]
      | i + 1, j + 1, 0 => simp [lcs3_table_zero_trd]
      | i + 1, j + 1, k + 1 =>
        rw [lcs3_table_succ, lcs3_table_succ]
        by_cases hc : s1[i]? = s2[j]? ∧ s2[j]? = s3[k]?
        · rw [if_pos hc, if_pos ⟨hc.1.symm, hc.1.trans hc.2⟩, ih i j k (by omega)]
        · rw [if_neg hc, if_neg (fun hcc => hc ⟨hcc.1.symm, hcc.1.trans hcc.2⟩),
            ih (i + 1) (j + 1) k (by omega), ih (i + 1) j (k + 1) (by omega),
            ih i (j + 1) (k + 1) (by omega), max_right_swap]
  exact key (i + j + k) i j k le_rfl

theorem lcs3_table_swap23 (s1 s2 s3 : List α) (i j k : Nat) :
    lcs3_table s1 s2 s3 i j k = lcs3_table s1 s3 s2 i k j := by
  have key : ∀ n i j k, i + j + k ≤ n →
      lcs3_table s1 s2 s3 i j k = lcs3_table s1 s3 s2 i k j := by
    intro n
    induction n with
    | zero =>
      intro i j k h
      have hi : i = 0 := by omega
      subst hi
      simp [lcs3_table_zero_fst]
    | succ n ih =>
      intro i j k h
      match i, j, k with
      | 0, j, k => simp [lcs3_table_zero_fst]
      | i + 1, 0, k => simp [lcs3_table_zero_snd, lcs3_table_zero_trd]
      | i + 1, j + 1, 0 => simp [lcs3_table_zero_snd, lcs3_table_zero_trd]
      | i + 1, j + 1, k + 1 =>
        rw [lcs3_table_succ, lcs3_table_succ]
        by_cases hc : s1[i]? = s2[j]? ∧ s2[j]? = s3[k]?
        · rw [if_pos hc, if_pos ⟨hc.1.trans hc.2, hc.2.symm⟩, ih i j k (by omega)]
        · rw [if_neg hc,
            if_neg (fun hcc => hc ⟨hcc.1.trans hcc.2, hcc.2.symm⟩),
            ih (i + 1) (j + 1) k (by omega), ih (i + 1) j (k + 1) (by omega),
            ih i (j + 1) (k + 1) (by omega),
            max_comm (lcs3_table s1 s3 s2 (i + 1) (k + 1) j)
              (lcs3_table s1 s3 s2 (i + 1) k (j + 1))]
  exact key (i + j + k) i j k le_rfl

end TripleLcsSymmetry

section ClaimTheorems

variable {α : Type*} [DecidableEq α]

/-- C2: for all sequences and integer penalties, the pairwise routine
computes the table of the spec recurrence — boundary `Table[i][0] =
gapPenalty*i` and `Table[0][j] = gapPenalty*j`, interior cell `(i+1, j+1)`
equal to `max(insertion, deletion, match-or-mismatch)` with
`match-or-mismatch = Table[i][j] + (1 if the characters agree else
mismatchPenalty)` — and returns `Table[m][n]`. -/
theorem nw_table_satisfies_spec_recurrence (s1 s2 : List α) (mu sigma : Int) :
    (∀ i, needleman_wunsch_table s1 s2 mu sigma i 0 = sigma * (i : Int)) ∧
    (∀ j, needleman_wunsch_table s1 s2 mu sigma 0 j = sigma * (j : Int)) ∧
    (∀ i j, (hi : i < s1.length) → (hj : j < s2.length) →
      needleman_wunsch_table s1 s2 mu sigma (i + 1) (j + 1) =
        max (max (needleman_wunsch_table s1 s2 mu sigma (i + 1) j + sigma)
            (needleman_wunsch_table s1 s2 mu sigma i (j + 1) + sigma))
          (needleman_wunsch_table s1 s2 mu sigma i j +
            if s1[i] = s2[j] then 1 else mu)) ∧
    needleman_wunsch_algorithm s1 s2 mu sigma =
      needleman_wunsch_table s1 s2 mu sigma s1.length s2.length := by
  refine ⟨needleman_wunsch_table_zero_right s1 s2 mu sigma,
    needleman_wunsch_table_zero_left s1 s2 mu sigma, ?_, rfl⟩
  intro i j hi hj
  rw [needleman_wunsch_table_succ_succ]
  have e1 : s1[i]? = some s1[i] := List.getElem?_eq_getElem hi
  have e2 : s2[j]? = some s2[j] := List.getElem?_eq_getElem hj
  simp only [_alignment_score_step, e1, e2, Option.some.injEq]
  by_cases h : s1[i] = s2[j] <;> simp [h]

/-- Concrete instance of the C2 statement at `s1 = "AB"`, `s2 = "A"`,
`mismatchPenalty = 2`, `gapPenalty = -3`, cell `(1, 1)`. -/
theorem nw_table_satisfies_spec_recurrence_witness :
    needleman_wunsch_table (['A', 'B'] : List Char) ['A'] 2 (-3) 1 1 =
      max (max (needleman_wunsch_table (['A', 'B'] : List Char) ['A'] 2 (-3) 1 0 + (-3))
          (needleman_wunsch_table (['A', 'B'] : List Char) ['A'] 2 (-3) 0 1 + (-3)))
        (needleman_wunsch_table (['A', 'B'] : List Char) ['A'] 2 (-3) 0 0 +
          if (['A', 'B'] : List Char)[0] = (['A'] : List Char)[0] then 1 else 2) :=
  (nw_table_satisfies_spec_recurrence ['A', 'B'] ['A'] 2 (-3)).2.2.1 0 0
    (by decide) (by decide)

/-- C3: the triple-LCS routine fills a 3D table whose boundary planes are
zero; an interior cell is the diagonal predecessor plus one when the three
characters agree and otherwise the maximum of the three cells obtained by
decrementing exactly one index; the routine returns `Table[m][n][p]`. -/
theorem lcs3_table_satisfies_spec_recurrence (s1 s2 s3 : List α) :
    (∀ j k, lcs3_table s1 s2 s3 0 j k = 0) ∧
    (∀ i k, lcs3_table s1 s2 s3 i 0 k = 0) ∧
    (∀ i j, lcs3_table s1 s2 s3 i j 0 = 0) ∧
    (∀ i j k, (hi : i < s1.length) → (hj : j < s2.length) → (hk : k < s3.length) →
      lcs3_table s1 s2 s3 (i + 1) (j + 1) (k + 1) =
        if s1[i] = s2[j] ∧ s2[j] = s3[k] then lcs3_table s1 s2 s3 i j k + 1
        else
          max (max (lcs3_table s1 s2 s3 (i + 1) (j + 1) k)
              (lcs3_table s1 s2 s3 (i + 1) j (k + 1)))
            (lcs3_table s1 s2 s3 i (j + 1) (k + 1))) ∧
    longest_common_subsequence s1 s2 s3 =
      lcs3_table s1 s2 s3 s1.length s2.length s3.length := by
  refine ⟨lcs3_table_zero_fst s1 s2 s3, lcs3_table_zero_snd s1 s2 s3,
    lcs3_table_zero_trd s1 s2 s3, ?_, rfl⟩
  intro i j k hi hj hk
  rw [lcs3_table_succ]
  have e1 : s1[i]? = some s1[i] := List.getElem?_eq_getElem hi
  have e2 : s2[j]? = some s2[j] := List.getElem?_eq_getElem hj
  have e3 : s3[k]? = some s3[k] := List.getElem?_eq_getElem hk
  simp only [e1, e2, e3, Option.some.injEq]

/-- Concrete instance of the C3 statement at `s1 = [0]`, `s2 = [0]`,
`s3 = [1]`, cell `(1, 1, 1)`. -/
theorem lcs3_table_satisfies_spec_recurrence_witness :
    lcs3_table ([0] : List Int) [0] [1] 1 1 1 =
      if ([0] : List Int)[0] = ([0] : List Int)[0] ∧
          ([0] : List Int)[0] = ([1] : List Int)[0] then
        lcs3_table ([0] : List Int) [0] [1] 0 0 0 + 1
      else
        max (max (lcs3_table ([0] : List Int) [0] [1] 1 1 0)
            (lcs3_table ([0] : List Int) [0] [1] 1 0 1))
          (lcs3_table ([0] : List Int) [0] [1] 0 1 1) :=
  (lcs3_table_satisfies_spec_recurrence [0] [0] [1]).2.2.2.1 0 0 0
    (by decide) (by decide) (by decide)

/-- C4: the triple-LCS routine returns the same integer under every
permutation of its three arguments. -/
theorem lcs3_symmetric_under_permutation (s1 s2 s3 : List α) :
    longest_common_subsequence s1 s2 s3 = longest_common_subsequence s2 s1 s3 ∧
    longest_common_subsequence s1 s2 s3 = longest_common_subsequence s1 s3 s2 ∧
    longest_common_subsequence s1 s2 s3 = longest_common_subsequence s2 s3 s1 ∧
    longest_common_subsequence s1 s2 s3 = longest_common_subsequence s3 s1 s2 ∧
    longest_common_subsequence s1 s2 s3 = longest_common_subsequence s3 s2 s1 := by
  have h12 : longest_common_subsequence s1 s2 s3 = longest_common_subsequence s2 s1 s3 :=
    lcs3_table_swap12 s1 s2 s3 s1.length s2.length s3.length
  have h23 : longest_common_subsequence s1 s2 s3 = longest_common_subsequence s1 s3 s2 :=
    lcs3_table_swap23 s1 s2 s3 s1.length s2.length s3.length
  have h231 : longest_common_subsequence s1 s2 s3 = longest_common_subsequence s2 s3 s1 :=
    h12.trans (lcs3_table_swap23 s2 s1 s3 s2.length s1.length s3.length)
  have h312 : longest_common_subsequence s1 s2 s3 = longest_common_subsequence s3 s1 s2 :=
    h23.trans (lcs3_table_swap12 s1 s3 s2 s1.length s3.length s2.length)
  exact ⟨h12, h23, h231, h312,
    h312.trans (lcs3_table_swap23 s3 s1 s2 s3.length s1.length s2.length)⟩

/-- C5: with one empty input the pairwise routine returns the
gap-penalty-scaled boundary value `sigma * len(s)`, in particular `0` when
both penalties are `0`, and the triple-LCS routine returns `0` whenever any
of its three inputs is empty. -/
theorem empty_input_boundary_values :
    (∀ (s : List α) (mu sigma : Int),
      needleman_wunsch_algorithm [] s mu sigma = sigma * (s.length : Int) ∧
      needleman_wunsch_algorithm s [] mu sigma = sigma * (s.length : Int)) ∧
    (∀ s : List α,
      needleman_wunsch_algorithm [] s 0 0 = 0 ∧
      needleman_wunsch_algorithm s [] 0 0 = 0) ∧
    (∀ s2 s3 : List α, longest_common_subsequence ([] : List α) s2 s3 = 0) ∧
    (∀ s1 s3 : List α, longest_common_subsequence s1 ([] : List α) s3 = 0) ∧
    (∀ s1 s2 : List α, longest_common_subsequence s1 s2 ([] : List α) = 0) := by
  have base : ∀ (s : List α) (mu sigma : Int),
      needleman_wunsch_algorithm [] s mu sigma = sigma * (s.length : Int) ∧
      needleman_wunsch_algorithm s [] mu sigma = sigma * (s.length : Int) := by
    intro s mu sigma
    constructor
    · exact needleman_wunsch_table_zero_left [] s mu sigma s.length
    · exact needleman_wunsch_table_zero_right s [] mu sigma s.length
  refine ⟨base, fun s => ?_, fun s2 s3 => ?_, fun s1 s3 => ?_, fun s1 s2 => ?_⟩
  · have h := base s 0 0
    simpa using h
  · exact lcs3_table_zero_fst [] s2 s3 s2.length s3.length
  · exact lcs3_table_zero_snd s1 [] s3 s1.length s3.length
  · exact lcs3_table_zero_trd s1 s2 [] s1.length s2.length

/-- C6: the spec worked examples: the pairwise routine on `"ACTG"`, `"AG"`
with both penalties zero returns `2`, and the triple-LCS routine on three
copies of `"AAAA"` returns `4`. -/
theorem spec_worked_examples :
    needleman_wunsch_algorithm (['A', 'C', 'T', 'G'] : List Char) ['A', 'G'] 0 0 = 2 ∧
    longest_common_subsequence (['A', 'A', 'A', 'A'] : List Char)
      ['A', 'A', 'A', 'A'] ['A', 'A', 'A', 'A'] = 4 :=
  ⟨by decide, by decide⟩

/-- C8: both alignment routines are total terminating functions of their
inputs: on every finite input they are defined and return a value (the
embedding is by structural recursion, accepted by the termination checker,
so every call reduces to a result). -/
theorem alignment_routines_total :
    ∀ (s1 s2 s3 : List α) (mu sigma : Int),
      (∃ r : Int, needleman_wunsch_algorithm s1 s2 mu sigma = r) ∧
      (∃ r : Int, longest_common_subsequence s1 s2 s3 = r) :=
  fun _ _ _ _ _ => ⟨⟨_, rfl⟩, ⟨_, rfl⟩⟩

end ClaimTheorems

section MajorityProofs

/-- Voting invariant for the first pass of the Boyer-Moore variant in the source
(which starts from `candidate, count = a[0], 1`, re-processes `a[0]`, and on a
zeroed count adopts the element that zeroed it): if during the scan the
pending votes for `x` outweigh the remainder as stated, the scan ends with
candidate `x`. -/
theorem bm_fold_finds_majority (x : Int) :
    ∀ (rem : List Int) (cand count : Int), 1 ≤ count →
      (if cand = x then 2 * (rem.count x : Int) + count ≥ (rem.length : Int) + 1
       else 2 * (rem.count x : Int) - count ≥ (rem.length : Int)) →
      (rem.foldl _bm_step (cand, count)).1 = x := by
  intro rem
  induction rem with
  | nil =>
    intro cand count h1 h2
    simp only [List.foldl_nil]
    by_cases hc : cand = x
    · exact hc
    · rw [if_neg hc] at h2
      simp only [List.count_nil, List.length_nil] at h2
      omega
  | cons e rest ih =>
    intro cand count h1 h2
    simp only [List.count_cons, List.length_cons, beq_iff_eq] at h2
    simp only [List.foldl_cons, _bm_step]
    by_cases hce : cand = e
    · have hne : ¬(count + 1 = 0) := by omega
      rw [if_pos hce, if_neg hne]
      apply ih cand (count + 1) (by omega)
      by_cases hcx : cand = x
      · have hex : e = x := hce ▸ hcx
        rw [if_pos hcx]
        rw [if_pos hcx] at h2
        simp only [hex, if_pos rfl] at h2
        push_cast at h2 ⊢
        omega
      · have hex : ¬(e = x) := fun h => hcx (hce.trans h)
        rw [if_neg hcx]
        rw [if_neg hcx] at h2
        simp only [if_neg hex] at h2
        push_cast at h2 ⊢
        omega
    · by_cases hzero : count - 1 = 0
      · rw [if_neg hce, if_pos hzero]
        apply ih e 1 (by omega)
        by_cases hex : e = x
        · have hcx : ¬(cand = x) := fun h => hce (h.trans hex.symm)
          rw [if_pos hex]
          rw [if_neg hcx] at h2
          simp only [hex, if_pos rfl] at h2
          push_cast at h2 ⊢
          omega
        · rw [if_neg hex]
          simp only [if_neg hex] at h2
          by_cases hcx : cand = x
          · rw [if_pos hcx] at h2
            push_cast at h2 ⊢
            omega
          · rw [if_neg hcx] at h2
            push_cast at h2 ⊢
            omega
      · rw [if_neg hce, if_neg hzero]
        apply ih cand (count - 1) (by omega)
        by_cases hcx : cand = x
        · have hex : ¬(e = x) := fun h => hce (hcx.trans h.symm)
          rw [if_pos hcx]
          rw [if_pos hcx] at h2
          simp only [if_neg hex] at h2
          push_cast at h2 ⊢
          omega
        · rw [if_neg hcx]
          rw [if_neg hcx] at h2
          by_cases hex : e = x
          · simp only [hex, if_pos rfl] at h2
            push_cast at h2 ⊢
            omega
          · simp only [if_neg hex] at h2
            push_cast at h2 ⊢
            omega

/-- The first pass of `boyer_moore_algorithm` returns the majority element of
`a` whenever `a` has one. -/
theorem candidate_eq_majority (a : List Int) (x : Int)
    (hmaj : a.length / 2 < a.count x) : _candidate_majority_element a = some x := by
  match a with
  | [] => simp at hmaj
  | h :: t =>
    simp only [_candidate_majority_element]
    refine congrArg some (bm_fold_finds_majority x (h :: t) h 1 (by omega) ?_)
    by_cases hhx : h = x
    · rw [if_pos hhx]
      omega
    · rw [if_neg hhx]
      omega

/-- The routine `boyer_moore_algorithm` returns the majority element of `a`
whenever `a` has one. -/
theorem boyer_moore_finds_majority (a : List Int) (x : Int)
    (hmaj : a.length / 2 < a.count x) : boyer_moore_algorithm a = x := by
  unfold boyer_moore_algorithm
  rw [candidate_eq_majority a x hmaj]
  simp [is_majority_element, hmaj]

/-- Two distinct values cannot together occur more often than the list is
long. -/
theorem count_pair_le_length (a : List Int) (x y : Int) (hxy : x ≠ y) :
    a.count x + a.count y ≤ a.length := by
  induction a with
  | nil => simp
  | cons h t ih =>
    simp only [List.count_cons, List.length_cons, beq_iff_eq]
    split_ifs <;> omega

/-- A majority element is unique. -/
theorem majority_unique (a : List Int) (x y : Int)
    (hx : a.length / 2 < a.count x) (hy : a.length / 2 < a.count y) : x = y := by
  by_contra hne
  have := count_pair_le_length a x y hne
  omega

/-- The routine `naive_algorithm` returns the majority element of `a` whenever
`a` has one. -/
theorem naive_finds_majority (a : List Int) (x : Int)
    (hmaj : a.length / 2 < a.count x) : naive_algorithm a = x := by
  unfold naive_algorithm
  cases hfind : a.find? (fun e => is_majority_element e a) with
  | none =>
    exfalso
    rw [List.find?_eq_none] at hfind
    have hmem : x ∈ a := List.count_pos_iff.mp (by omega)
    exact hfind x hmem (by simp [is_majority_element]; omega)
  | some e =>
    have hp := List.find?_some hfind
    simp only [is_majority_element, decide_eq_true_eq] at hp
    simp only [Option.getD_some]
    exact majority_unique a e x hp hmaj

/-- The routine `naive_algorithm` returns the sentinel `-1` when `a` has no majority
element. -/
theorem naive_no_majority (a : List Int)
    (h : ∀ v ∈ a, ¬(a.length / 2 < a.count v)) : naive_algorithm a = -1 := by
  unfold naive_algorithm
  rw [List.find?_eq_none.mpr fun v hv => by
    simp only [is_majority_element, decide_eq_true_eq]
    exact h v hv]
  rfl

/-- The routine `boyer_moore_algorithm` returns the sentinel `-1` when `a` has no
majority element. -/
theorem bm_no_majority (a : List Int)
    (h : ∀ v ∈ a, ¬(a.length / 2 < a.count v)) : boyer_moore_algorithm a = -1 := by
  unfold boyer_moore_algorithm
  cases hc : _candidate_majority_element a with
  | none => rfl
  | some c =>
    have hnot : ¬(a.length / 2 < a.count c) := by
      intro hmaj
      exact h c (List.count_pos_iff.mp (by omega)) hmaj
    simp [is_majority_element, hnot]

end MajorityProofs

section MajorityClaims

/-- C7: on every list with no element occurring strictly more than
`len(a) // 2` times, both `naive_algorithm` and `boyer_moore_algorithm`
return the sentinel `-1`; on every list with a majority element different
from `-1`, neither returns `-1`. -/
theorem majority_sentinel_behaviour :
    (∀ a : List Int, (∀ v ∈ a, ¬(a.length / 2 < a.count v)) →
      naive_algorithm a = -1 ∧ boyer_moore_algorithm a = -1) ∧
    (∀ (a : List Int) (x : Int), a.length / 2 < a.count x → x ≠ -1 →
      naive_algorithm a ≠ -1 ∧ boyer_moore_algorithm a ≠ -1) :=
  ⟨fun a h => ⟨naive_no_majority a h, bm_no_majority a h⟩,
   fun a x hmaj hx =>
    ⟨by rw [naive_finds_majority a x hmaj]; exact hx,
     by rw [boyer_moore_finds_majority a x hmaj]; exact hx⟩⟩

/-- Concrete instance of the C7 statement: `[1, 2]` has no majority element
and both routines return `-1`; `[5, 5, 2]` has majority element `5 ≠ -1` and
neither routine returns `-1`. -/
theorem majority_sentinel_behaviour_witness :
    (naive_algorithm [1, 2] = -1 ∧ boyer_moore_algorithm [1, 2] = -1) ∧
    (naive_algorithm [5, 5, 2] ≠ -1 ∧ boyer_moore_algorithm [5, 5, 2] ≠ -1) :=
  ⟨majority_sentinel_behaviour.1 [1, 2] (by decide),
   majority_sentinel_behaviour.2 [5, 5, 2] 5 (by decide) (by decide)⟩

/-- C9: `divide_and_conquer_algorithm` calls `_get_majority_element`, a name
defined nowhere in the notebook, so it raises `NameError` on every input —
already on the empty list — instead of returning `naive_algorithm(a)`
(which is `-1` there) as its own property-based test asserts. -/
theorem divide_and_conquer_raises_name_error :
    divide_and_conquer_algorithm [] =
      Except.error "NameError: name _get_majority_element is not defined" ∧
    naive_algorithm [] = -1 :=
  ⟨rfl, rfl⟩

/-- C10: `boyer_moore_algorithm` returns `-1` on the empty list without
evaluating `a[0]` (`_candidate_majority_element`, whose unguarded `a[0]` is
modelled by `none`, is never consulted there thanks to the length guard), and
on every non-empty list with a majority element it returns that element. -/
theorem boyer_moore_safety_and_correctness :
    boyer_moore_algorithm [] = -1 ∧
    _candidate_majority_element [] = none ∧
    ∀ (a : List Int) (x : Int), a ≠ [] → a.length / 2 < a.count x →
      boyer_moore_algorithm a = x :=
  ⟨rfl, rfl, fun a x _ hmaj => boyer_moore_finds_majority a x hmaj⟩

/-- Concrete instance of the C10 statement at the list `[7, 3, 7]`, whose
majority element is `7`. -/
theorem boyer_moore_safety_and_correctness_witness :
    boyer_moore_algorithm [] = -1 ∧
    _candidate_majority_element [] = none ∧
    boyer_moore_algorithm [7, 3, 7] = 7 :=
  ⟨boyer_moore_safety_and_correctness.1,
   boyer_moore_safety_and_correctness.2.1,
   boyer_moore_safety_and_correctness.2.2 [7, 3, 7] 7 (by decide) (by decide)⟩

end MajorityClaims

section LcsReference

variable {α : Type*} [DecidableEq α]

/-- The textbook recurrence for the length of a longest common subsequence,
used as a stepping stone between the dynamic-programming table and the
subsequence-based reference definition `lcs_length_spec`. -/
def lcsLen : List α → List α → Nat
  | [], _ => 0
  | _ :: _, [] => 0
  | a :: as, b :: bs =>
    if a = b then lcsLen as bs + 1
    else max (lcsLen (a :: as) bs) (lcsLen as (b :: bs))
termination_by s t => s.length + t.length
decreasing_by all_goals simp only [List.length_cons]; omega

theorem lcsLen_nil_left (s : List α) : lcsLen [] s = 0 := by
  simp [lcsLen]

theorem lcsLen_nil_right (s : List α) : lcsLen s [] = 0 := by
  cases s <;> simp [lcsLen]

/-- Every common subsequence of `s1` and `s2` has length at most
`lcsLen s1 s2`. -/
theorem length_le_lcsLen (t s1 s2 : List α)
    (h1 : t.Sublist s1) (h2 : t.Sublist s2) : t.length ≤ lcsLen s1 s2 := by
  have key : ∀ (n : Nat) (t s1 s2 : List α), s1.length + s2.length ≤ n →
      t.Sublist s1 → t.Sublist s2 → t.length ≤ lcsLen s1 s2 := by
    intro n
    induction n with
    | zero =>
      intro t s1 s2 hn h1 h2
      have : s1 = [] := by
        cases s1 with
        | nil => rfl
        | cons a as => simp at hn
      subst this
      rw [List.sublist_nil.mp h1]
      simp
    | succ n ih =>
      intro t s1 s2 hn h1 h2
      match s1, s2 with
      | [], s2 =>
        rw [List.sublist_nil.mp h1]
        simp
      | a :: as, [] =>
        rw [List.sublist_nil.mp h2]
        simp
      | a :: as, b :: bs =>
        simp only [List.length_cons] at hn
        by_cases hab : a = b
        · subst hab
          rw [show lcsLen (a :: as) (a :: bs) = lcsLen as bs + 1 by simp [lcsLen]]
          rcases List.sublist_cons_iff.mp h1 with h1' | ⟨r, rfl, hr⟩
          · rcases List.sublist_cons_iff.mp h2 with h2' | ⟨r2, rfl, hr2⟩
            · have := ih t as bs (by omega) h1' h2'
              omega
            · have hr2' : r2.Sublist as := (List.sublist_cons_self a r2).trans h1'
              have := ih r2 as bs (by omega) hr2' hr2
              simp only [List.length_cons]
              omega
          · rcases List.sublist_cons_iff.mp h2 with h2' | ⟨r2, heq, hr2⟩
            · have hrbs : r.Sublist bs := (List.sublist_cons_self a r).trans h2'
              have := ih r as bs (by omega) hr hrbs
              simp only [List.length_cons]
              omega
            · obtain ⟨-, rfl⟩ := List.cons.injEq .. |>.mp heq
              have := ih r as bs (by omega) hr hr2
              simp only [List.length_cons]
              omega
        · rw [show lcsLen (a :: as) (b :: bs) =
            max (lcsLen (a :: as) bs) (lcsLen as (b :: bs)) by simp [lcsLen, hab]]
          rcases List.sublist_cons_iff.mp h2 with h2' | ⟨r2, rfl, hr2⟩
          · exact le_trans (ih t (a :: as) bs (by simp; omega) h1 h2')
              (le_max_left _ _)
          · rcases List.sublist_cons_iff.mp h1 with h1' | ⟨r1, heq, hr1⟩
            · exact le_trans (ih (b :: r2) as (b :: bs) (by simp; omega) h1' h2)
                (le_max_right _ _)
            · exfalso
              exact hab (by injection heq with hba _; exact hba.symm)
  exact key (s1.length + s2.length) t s1 s2 le_rfl h1 h2

/-- Some common subsequence of `s1` and `s2` attains length `lcsLen s1 s2`. -/
theorem exists_common_sublist (s1 s2 : List α) :
    ∃ t : List α, t.Sublist s1 ∧ t.Sublist s2 ∧ t.length = lcsLen s1 s2 := by
  have key : ∀ (n : Nat) (s1 s2 : List α), s1.length + s2.length ≤ n →
      ∃ t : List α, t.Sublist s1 ∧ t.Sublist s2 ∧ t.length = lcsLen s1 s2 := by
    intro n
    induction n with
    | zero =>
      intro s1 s2 hn
      have h1 : s1 = [] := by
        cases s1 with
        | nil => rfl
        | cons a as => simp at hn
      subst h1
      exact ⟨[], List.nil_sublist _, List.nil_sublist _, by simp [lcsLen]⟩
    | succ n ih =>
      intro s1 s2 hn
      match s1, s2 with
      | [], s2 =>
        exact ⟨[], List.nil_sublist _, List.nil_sublist _, by simp [lcsLen]⟩
      | a :: as, [] =>
        exact ⟨[], List.nil_sublist _, List.nil_sublist _, by
          rw [lcsLen_nil_right]; rfl⟩
      | a :: as, b :: bs =>
        simp only [List.length_cons] at hn
        by_cases hab : a = b
        · subst hab
          obtain ⟨t, ht1, ht2, hlen⟩ := ih as bs (by omega)
          refine ⟨a :: t, List.cons_sublist_cons.mpr ht1,
            List.cons_sublist_cons.mpr ht2, ?_⟩
          rw [show lcsLen (a :: as) (a :: bs) = lcsLen as bs + 1 by simp [lcsLen]]
          simp [hlen]
        · rw [show lcsLen (a :: as) (b :: bs) =
            max (lcsLen (a :: as) bs) (lcsLen as (b :: bs)) by simp [lcsLen, hab]]
          rcases le_total (lcsLen (a :: as) bs) (lcsLen as (b :: bs)) with hle | hle
          · obtain ⟨t, ht1, ht2, hlen⟩ := ih as (b :: bs) (by simp; omega)
            exact ⟨t, ht1.cons a, ht2, by rw [hlen, max_eq_right hle]⟩
          · obtain ⟨t, ht1, ht2, hlen⟩ := ih (a :: as) bs (by simp; omega)
            exact ⟨t, ht1, ht2.cons b, by rw [hlen, max_eq_left hle]⟩
  exact key (s1.length + s2.length) s1 s2 le_rfl

end LcsReference

section LcsSpec

variable {α : Type*} [DecidableEq α]

/-- Independent reference definition of the length of a longest common
subsequence: the maximum of the lengths of those subsequences of `s1`
(`List.Sublist`, i.e. in-order but not necessarily contiguous selections)
that are also subsequences of `s2`. -/
def lcs_length_spec (s1 s2 : List α) : Nat :=
  ((s1.sublists.filter fun t => decide (t.Sublist s2)).map List.length).foldr max 0

theorem foldr_max_le (L : List Nat) (b : Nat) (h : ∀ x ∈ L, x ≤ b) :
    L.foldr max 0 ≤ b := by
  induction L with
  | nil => simp
  | cons x xs ih =>
    simp only [List.foldr_cons]
    exact max_le (h x (List.mem_cons_self x xs))
      (ih fun y hy => h y (List.mem_cons_of_mem x hy))

theorem le_foldr_max (L : List Nat) (x : Nat) (h : x ∈ L) :
    x ≤ L.foldr max 0 := by
  induction L with
  | nil => cases h
  | cons y ys ih =>
    simp only [List.foldr_cons]
    rcases List.mem_cons.mp h with rfl | hmem
    · exact le_max_left _ _
    · exact le_trans (ih hmem) (le_max_right _ _)

/-- The subsequence-based reference definition agrees with the textbook
recurrence. -/
theorem lcs_length_spec_eq (s1 s2 : List α) :
    lcs_length_spec s1 s2 = lcsLen s1 s2 := by
  apply le_antisymm
  · apply foldr_max_le
    intro x hx
    simp only [List.mem_map, List.mem_filter, List.mem_sublists,
      decide_eq_true_eq] at hx
    obtain ⟨t, ⟨ht1, ht2⟩, rfl⟩ := hx
    exact length_le_lcsLen t s1 s2 ht1 ht2
  · obtain ⟨t, ht1, ht2, hlen⟩ := exists_common_sublist s1 s2
    rw [← hlen]
    apply le_foldr_max
    simp only [List.mem_map, List.mem_filter, List.mem_sublists,
      decide_eq_true_eq]
    exact ⟨t, ⟨ht1, ht2⟩, rfl⟩

theorem lcsLen_le_cons_left (a : α) (u v : List α) :
    lcsLen u v ≤ lcsLen (a :: u) v := by
  obtain ⟨t, h1, h2, hl⟩ := exists_common_sublist u v
  rw [← hl]
  exact length_le_lcsLen t _ _ (h1.cons a) h2

theorem lcsLen_cons_left_le (a : α) (u v : List α) :
    lcsLen (a :: u) v ≤ lcsLen u v + 1 := by
  obtain ⟨t, h1, h2, hl⟩ := exists_common_sublist (a :: u) v
  rw [← hl]
  rcases List.sublist_cons_iff.mp h1 with h | ⟨r, rfl, hr⟩
  · exact le_trans (length_le_lcsLen t u v h h2) (Nat.le_succ _)
  · have hrv : r.Sublist v := (List.sublist_cons_self a r).trans h2
    have := length_le_lcsLen r u v hr hrv
    simp only [List.length_cons]
    omega

theorem lcsLen_le_cons_right (b : α) (u v : List α) :
    lcsLen u v ≤ lcsLen u (b :: v) := by
  obtain ⟨t, h1, h2, hl⟩ := exists_common_sublist u v
  rw [← hl]
  exact length_le_lcsLen t _ _ h1 (h2.cons b)

theorem lcsLen_cons_right_le (b : α) (u v : List α) :
    lcsLen u (b :: v) ≤ lcsLen u v + 1 := by
  obtain ⟨t, h1, h2, hl⟩ := exists_common_sublist u (b :: v)
  rw [← hl]
  rcases List.sublist_cons_iff.mp h2 with h | ⟨r, rfl, hr⟩
  · exact le_trans (length_le_lcsLen t u v h1 h) (Nat.le_succ _)
  · have hru : r.Sublist u := (List.sublist_cons_self b r).trans h1
    have := length_le_lcsLen r u v hru hr
    simp only [List.length_cons]
    omega

/-- Reversing both sequences preserves the LCS length. -/
theorem lcsLen_reverse (u v : List α) :
    lcsLen u.reverse v.reverse = lcsLen u v := by
  apply le_antisymm
  · obtain ⟨t, h1, h2, hl⟩ := exists_common_sublist u.reverse v.reverse
    rw [← hl]
    have h1' : t.reverse.Sublist u := by simpa using h1.reverse
    have h2' : t.reverse.Sublist v := by simpa using h2.reverse
    have := length_le_lcsLen t.reverse u v h1' h2'
    simpa using this
  · obtain ⟨t, h1, h2, hl⟩ := exists_common_sublist u v
    rw [← hl]
    have := length_le_lcsLen t.reverse u.reverse v.reverse h1.reverse h2.reverse
    simpa using this

end LcsSpec

section NwLcsBridge

variable {α : Type*} [DecidableEq α]

/-- With both penalties zero, cell `(i, j)` of the Needleman-Wunsch table is
the LCS length of the first `i` characters of `s1` and the first `j`
characters of `s2` (stated on the reversed prefixes so that the table
recurrence peels elements off the front). -/
theorem nw_table_eq_lcsLen (s1 s2 : List α) (i j : Nat)
    (hi : i ≤ s1.length) (hj : j ≤ s2.length) :
    needleman_wunsch_table s1 s2 0 0 i j =
      ((lcsLen (s1.take i).reverse (s2.take j).reverse : Nat) : Int) := by
  have key : ∀ (n i j : Nat), i + j ≤ n → i ≤ s1.length → j ≤ s2.length →
      needleman_wunsch_table s1 s2 0 0 i j =
        ((lcsLen (s1.take i).reverse (s2.take j).reverse : Nat) : Int) := by
    intro n
    induction n with
    | zero =>
      intro i j hsum hi hj
      have hi0 : i = 0 := by omega
      have hj0 : j = 0 := by omega
      subst hi0; subst hj0
      rw [needleman_wunsch_table_zero_left]
      simp [lcsLen_nil_left]
    | succ n ih =>
      intro i j hsum hi hj
      match i, j with
      | 0, j =>
        rw [needleman_wunsch_table_zero_left]
        simp [lcsLen_nil_left]
      | i + 1, 0 =>
        rw [needleman_wunsch_table_zero_right]
        simp [lcsLen_nil_right]
      | i + 1, j + 1 =>
        have hi' : i < s1.length := by omega
        have hj' : j < s2.length := by omega
        have e1 : s1[i]? = some s1[i] := List.getElem?_eq_getElem hi'
        have e2 : s2[j]? = some s2[j] := List.getElem?_eq_getElem hj'
        have t1 : (s1.take (i + 1)).reverse = s1[i] :: (s1.take i).reverse := by
          rw [List.take_succ, e1]
          simp
        have t2 : (s2.take (j + 1)).reverse = s2[j] :: (s2.take j).reverse := by
          rw [List.take_succ, e2]
          simp
        have ih1 := ih (i + 1) j (by omega) (by omega) (by omega)
        have ih2 := ih i (j + 1) (by omega) (by omega) (by omega)
        have ih3 := ih i j (by omega) (by omega) (by omega)
        rw [t1] at ih1
        rw [t2] at ih2
        rw [needleman_wunsch_table_succ_succ, t1, t2]
        simp only [_alignment_score_step, e1, e2, Option.some.injEq]
        by_cases hab : s1[i] = s2[j]
        · rw [if_pos hab]
          have hrhs : lcsLen (s1[i] :: (s1.take i).reverse)
              (s2[j] :: (s2.take j).reverse) =
              lcsLen (s1.take i).reverse (s2.take j).reverse + 1 := by
            simp [lcsLen, hab]
          rw [hrhs, ih1, ih2, ih3, add_zero, add_zero]
          have hL1 : ((lcsLen (s1[i] :: (s1.take i).reverse)
              (s2.take j).reverse : Nat) : Int) ≤
              ((lcsLen (s1.take i).reverse (s2.take j).reverse : Nat) : Int) + 1 := by
            exact_mod_cast lcsLen_cons_left_le s1[i] _ _
          have hL2 : ((lcsLen (s1.take i).reverse
              (s2[j] :: (s2.take j).reverse) : Nat) : Int) ≤
              ((lcsLen (s1.take i).reverse (s2.take j).reverse : Nat) : Int) + 1 := by
            exact_mod_cast lcsLen_cons_right_le s2[j] _ _
          push_cast
          exact max_eq_right (max_le hL1 hL2)
        · rw [if_neg hab]
          have hrhs : lcsLen (s1[i] :: (s1.take i).reverse)
              (s2[j] :: (s2.take j).reverse) =
              max (lcsLen (s1[i] :: (s1.take i).reverse) (s2.take j).reverse)
                (lcsLen (s1.take i).reverse (s2[j] :: (s2.take j).reverse)) := by
            simp [lcsLen, hab]
          rw [hrhs, ih1, ih2, ih3, add_zero, add_zero, add_zero]
          have hC : ((lcsLen (s1.take i).reverse (s2.take j).reverse : Nat) : Int) ≤
              ((lcsLen (s1[i] :: (s1.take i).reverse) (s2.take j).reverse : Nat) : Int) := by
            exact_mod_cast lcsLen_le_cons_left s1[i] _ _
          push_cast
          exact max_eq_left (le_trans hC (le_max_left _ _))
  exact key (i + j) i j le_rfl hi hj

end NwLcsBridge

section LcsClaim

variable {α : Type*} [DecidableEq α]

/-- C1: with mismatch penalty `0` and gap penalty `0` the pairwise alignment
routine returns exactly the length of the longest common subsequence of its
two inputs, as given by the independent reference definition
`lcs_length_spec` (maximum length over common subsequences). -/
theorem nw_zero_penalties_eq_lcs_length (s1 s2 : List α) :
    needleman_wunsch_algorithm s1 s2 0 0 = (lcs_length_spec s1 s2 : Int) := by
  unfold needleman_wunsch_algorithm
  rw [nw_table_eq_lcsLen s1 s2 s1.length s2.length le_rfl le_rfl,
    List.take_length, List.take_length, lcsLen_reverse, lcs_length_spec_eq]

end LcsClaim
